import Mathlib

/-!
Verification development for the RTF de-encapsulation utility module
(`RTFDE/utils.py`).  Python strings are embedded as `List Char`; fallible
functions return `Except PyErr`.  The standard-library pieces the module
calls (`str.replace`, `int(...)`, `format(n, "#06x")`, `str.strip`,
`str.isdigit`, `re.split` on a literal pattern, and `difflib.context_diff`
with its `SequenceMatcher`) are embedded from their documented CPython
semantics, since the module's observable behaviour goes through them.
-/

/-! ### Characters and small helpers -/

def chBS : Char := Char.ofNat 92

def chSQ : Char := Char.ofNat 39

def chOB : Char := Char.ofNat 123

def chCB : Char := Char.ofNat 125

def chNL : Char := Char.ofNat 10

def chars (s : String) : List Char := s.toList

/-- Python errors surfaced by this module.  The spec names `valueError`
`InvalidParameter` and `attributeError` `MalformedDiagnosticPayload`. -/
inductive PyErr where
  | valueError : PyErr
  | attributeError : PyErr
deriving DecidableEq

/-- ASCII decimal digit test (embeds the digit check of `str.isdigit` and
`int(...)` for ASCII input). -/
def isDigitCh (c : Char) : Bool := decide (48 ≤ c.toNat ∧ c.toNat ≤ 57)

/-- ASCII whitespace (embeds the characters stripped by `str.strip`). -/
def isSpaceCh (c : Char) : Bool :=
  decide (c.toNat = 32 ∨ c.toNat = 9 ∨ c.toNat = 10 ∨ c.toNat = 13 ∨
          c.toNat = 11 ∨ c.toNat = 12)

/-- Embeds Python `str.strip()`: drop leading and trailing whitespace. -/
def stripPy (s : List Char) : List Char :=
  ((s.dropWhile isSpaceCh).reverse.dropWhile isSpaceCh).reverse

/-- Embeds Python `str.isdigit()` (ASCII fragment): non-empty and all
decimal digits; on the empty string it is `false`. -/
def pyIsdigit (s : List Char) : Bool := !s.isEmpty && s.all isDigitCh

/-- Value of a list of decimal digits, most significant first. -/
def decValue (ds : List Char) : Nat :=
  ds.foldl (fun a c => 10 * a + (c.toNat - 48)) 0

/-- Embeds Python `int(s)` on a string: optional surrounding whitespace,
optional sign, then a non-empty run of decimal digits; anything else
raises `ValueError` (`none` here).  Underscore separators and non-ASCII
digits are outside the modelled fragment. -/
def pyIntOfString (s : List Char) : Option Int :=
  let t := stripPy s
  match t with
  | [] => none
  | c :: rest =>
    if c = '+' then
      if rest ≠ [] ∧ rest.all isDigitCh then some (decValue rest) else none
    else if c = '-' then
      if rest ≠ [] ∧ rest.all isDigitCh then some (-(decValue rest : Int)) else none
    else if (c :: rest).all isDigitCh then some (decValue (c :: rest)) else none

/-! ### Canonical encoder: `get_control_parameter_as_hex_strings` -/

/-- Lower-case hex digit character for `n < 16`. -/
def hexDigit (n : Nat) : Char :=
  if n < 10 then Char.ofNat (48 + n) else Char.ofNat (87 + n)

/-- Hex digits of `n`, most significant first; `fuel`-structured recursion
(the fuel only needs to dominate the number of divisions by 16). -/
def natToHexAux : Nat → Nat → List Char
  | 0, n => [hexDigit (n % 16)]
  | fuel + 1, n =>
    if n < 16 then [hexDigit n]
    else natToHexAux fuel (n / 16) ++ [hexDigit (n % 16)]

def natToHex (n : Nat) : List Char := natToHexAux n n

/-- Zero-pad a digit string on the left to width `w` (Python's `0`-fill). -/
def zfill (w : Nat) (ds : List Char) : List Char :=
  List.replicate (w - ds.length) '0' ++ ds

/-- Embeds Python `f"{n:#06x}"`: `0x`-prefixed lower-case hex, the whole
string zero-padded to a minimum of 6 characters (the pad goes after the
sign and prefix, so 4 digit positions for non-negative numbers, 3 after
`-0x`). -/
def formatHash06x (n : Int) : List Char :=
  if 0 ≤ n then '0' :: 'x' :: zfill 4 (natToHex n.toNat)
  else '-' :: '0' :: 'x' :: zfill 3 (natToHex (-n).toNat)

/-- Argument type of `get_control_parameter_as_hex_strings`
(`Union[str,int]`). -/
inductive CtrlParam where
  | int : Int → CtrlParam
  | str : List Char → CtrlParam

/-- Embeds `get_control_parameter_as_hex_strings`: an `int` argument is
formatted directly; for a `str` argument the format call raises
`ValueError`, which the source catches and retries after `int(...)`
conversion; a non-numeric string makes that `int(...)` call raise an
uncaught `ValueError`. -/
def get_control_parameter_as_hex_strings (control_parameter : CtrlParam) :
    Except PyErr (List Char) :=
  match control_parameter with
  | .int n => .ok (formatHash06x n)
  | .str s =>
    match pyIntOfString s with
    | some v => .ok (formatHash06x v)
    | none => .error .valueError

/-! ### Canonical encoder: `encode_escaped_control_chars` -/

/-- Embeds Python `str.replace` specialised to a two-character pattern
`p1 p2`: non-overlapping, leftmost-first replacement by `rep`. -/
def replace2 (p1 p2 : Char) (rep : List Char) : List Char → List Char
  | [] => []
  | [c] => [c]
  | c1 :: c2 :: rest =>
    if c1 = p1 ∧ c2 = p2 then rep ++ replace2 p1 p2 rep rest
    else c1 :: replace2 p1 p2 rep (c2 :: rest)

def esc5c : List Char := [chBS, chSQ, '5', 'c']

def esc7b : List Char := [chBS, chSQ, '7', 'b']

def esc7d : List Char := [chBS, chSQ, '7', 'd']

/-- Embeds `encode_escaped_control_chars`: the three `str.replace` calls of
the source, in source order (escaped backslash first, then escaped
open-brace, then escaped close-brace; the two-character patterns are
backslash-backslash, backslash-openbrace, backslash-closebrace, and the
replacements are the escape-hex forms for bytes 5c, 7b, 7d). -/
def encode_escaped_control_chars (raw_text : List Char) : List Char :=
  replace2 chBS chCB esc7d
    (replace2 chBS chOB esc7b
      (replace2 chBS chBS esc5c raw_text))

/-- Specification-side one-pass scan: replaces every occurrence of the
escaped pairs backslash-backslash, backslash-openbrace,
backslash-closebrace by their escape-hex encodings in a single
left-to-right scan, leaving every other character unchanged. -/
def escScan : List Char → List Char
  | [] => []
  | [c] => [c]
  | c1 :: c2 :: rest =>
    if c1 = chBS ∧ c2 = chBS then esc5c ++ escScan rest
    else if c1 = chBS ∧ c2 = chOB then esc7b ++ escScan rest
    else if c1 = chBS ∧ c2 = chCB then esc7d ++ escScan rest
    else c1 :: escScan (c2 :: rest)

/-! ### Token data and the token predicate -/

/-- A lark `Token`: a string value plus positional metadata (`type`,
`line`, `end_line`, `start_pos`, `end_pos`). -/
structure TokenData where
  value : List Char
  ttype : List Char
  line : Int
  endLine : Int
  startPos : Int
  endPos : Int
deriving DecidableEq

/-- Argument of the token-taking functions (`Union[Token,Any]`): either a
`Token` or some other value, which has no `.value` attribute and makes
attribute access raise `AttributeError`. -/
inductive TokOrAny where
  | tok : TokenData → TokOrAny
  | nonTok : TokOrAny
deriving DecidableEq

/-- Embeds `is_codeword_with_numeric_arg`: strip the token's value, check
`startswith(codeword)` and that the remaining suffix `isdigit()`; the
`AttributeError` on a non-token argument is caught and yields `false`. -/
def is_codeword_with_numeric_arg (token : TokOrAny) (codeword : List Char) : Bool :=
  match token with
  | .nonTok => false
  | .tok t =>
    let val := stripPy t.value
    codeword.isPrefixOf val && pyIsdigit (val.drop codeword.length)

/-! ### Diagnostic gate: `log_htmlrtf_stripping` -/

/-- `logging.DEBUG` in CPython. -/
def pyDEBUG : Nat := 10

/-- Decimal digits of `n`, most significant first (fuel-structured). -/
def natToDecAux : Nat → Nat → List Char
  | 0, n => [Char.ofNat (48 + n % 10)]
  | fuel + 1, n =>
    if n < 10 then [Char.ofNat (48 + n)]
    else natToDecAux fuel (n / 10) ++ [Char.ofNat (48 + n % 10)]

def natToDec (n : Nat) : List Char := natToDecAux n n

/-- Decimal rendering of an `Int` (Python `str` of an int). -/
def intToDec (i : Int) : List Char :=
  if i < 0 then '-' :: natToDec (-i).toNat else natToDec i.toNat

/-- The formatted line `log_htmlrtf_stripping` emits for a token:
`HTMLRTF Removed: value, line, end_line, start_pos, end_pos`. -/
def tokDesc (t : TokenData) : List Char :=
  chars "HTMLRTF Removed: " ++ t.value ++ chars ", " ++ intToDec t.line ++
  chars ", " ++ intToDec t.endLine ++ chars ", " ++ intToDec t.startPos ++
  chars ", " ++ intToDec t.endPos

/-- Outcome of a diagnostic-gate call that did not raise. -/
inductive LogResult where
  | logged : List Char → LogResult
  | skipped : LogResult
deriving DecidableEq

/-- Embeds `log_htmlrtf_stripping`: only when the channel's level equals
`logging.DEBUG` does it inspect the payload, raising `AttributeError` on a
non-token and otherwise emitting the formatted token line; at any other
level it returns immediately without looking at the payload. -/
def log_htmlrtf_stripping (level : Nat) (data : TokOrAny) : Except PyErr LogResult :=
  if level = pyDEBUG then
    match data with
    | .tok t => .ok (.logged (tokDesc t))
    | .nonTok => .error .attributeError
  else .ok .skipped

/-! ### Trees and the flatteners -/

mutual

/-- A lark `Tree`: a `data` tag and an ordered child sequence. -/
inductive LTree where
  | mk : List Char → ChildSeq → LTree

/-- Ordered children of a tree (a bespoke list keeps the mutual recursion
structural). -/
inductive ChildSeq where
  | nil : ChildSeq
  | cons : Child → ChildSeq → ChildSeq

/-- A child of a tree: a `Token`, a nested `Tree`, or some other scalar,
carried here by its textual `repr`. -/
inductive Child where
  | tok : TokenData → Child
  | sub : LTree → Child
  | scalar : List Char → Child

end

def treeTag : LTree → List Char
  | .mk tag _ => tag

def seqToList : ChildSeq → List Child
  | .nil => []
  | .cons c rest => c :: seqToList rest

/-- Python-`repr` of a string in the common case: single-quoted, with
backslash and single-quote escaped (control-character escapes and the
double-quote fallback are outside the modelled fragment). -/
def pyReprStr (s : List Char) : List Char :=
  [chSQ] ++ s.flatMap (fun c =>
    if c = chBS then [chBS, chBS]
    else if c = chSQ then [chBS, chSQ]
    else [c]) ++ [chSQ]

/-- lark's `Token.__repr__`: `Token(%r, %r) % (type, value)`. -/
def tokenRepr (t : TokenData) : List Char :=
  chars "Token(" ++ pyReprStr t.ttype ++ chars ", " ++ pyReprStr t.value ++ chars ")"

/-- The synthetic label the flattener yields for a tree node: the word
Tree, then the single-quoted tag in parentheses. -/
def treeLabel (tag : List Char) : List Char :=
  chars "Tree(" ++ [chSQ] ++ tag ++ [chSQ, ')']

mutual

/-- Embeds `flatten_tree`: yield the tree label built by `treeLabel`, then walk
the children in order, yielding `repr(child)` for tokens, recursing into
nested trees, and yielding the generic `repr` for anything else. -/
def flatten_tree : LTree → List (List Char)
  | .mk tag children => treeLabel tag :: flattenSeq children

def flattenSeq : ChildSeq → List (List Char)
  | .nil => []
  | .cons c rest => flattenChild c ++ flattenSeq rest

def flattenChild : Child → List (List Char)
  | .tok t => [tokenRepr t]
  | .sub t => flatten_tree t
  | .scalar r => [r]

end

mutual

/-- Embeds `flatten_tree_to_string_array`: values only, no tag labels. -/
def flatten_tree_to_string_array : LTree → List (List Char)
  | .mk _ children => fvSeq children

def fvSeq : ChildSeq → List (List Char)
  | .nil => []
  | .cons c rest => fvChild c ++ fvSeq rest

def fvChild : Child → List (List Char)
  | .tok t => [t.value]
  | .sub t => flatten_tree_to_string_array t
  | .scalar r => [r]

end

/-! ### difflib: `SequenceMatcher` and `context_diff`

`get_tree_diff` and `get_string_diff` go through
`difflib.context_diff(a, b)`, i.e. `SequenceMatcher(None, a, b)` with
`autojunk=True` and no junk predicate.  The matcher is embedded below on
sequences of strings: `b2j` with the autojunk "popular element" purge,
`find_longest_match` (the `j2len` dynamic program plus the two non-junk
extension loops; the two junk extension loops of the source are no-ops
because the junk set is empty for `SequenceMatcher(None, _, _)`),
recursive `get_matching_blocks` with the adjacent-block merge, then
`get_opcodes`, `get_grouped_opcodes` and the context-format rendering. -/

/-- Elements diffed by this module are strings. -/
abbrev DElem := List Char

/-- Indexing `a[i]` (always in range where the source uses it). -/
def lget (l : List DElem) (i : Nat) : DElem := l.getD i []

/-- Ascending list of positions of `x` in `b` (one `b2j` entry). -/
def positions (b : List DElem) (x : DElem) : List Nat :=
  (List.range b.length).filter (fun j => decide (lget b j = x))

/-- `b2j` lookup after the autojunk purge: an element occurring more than
`len(b) // 100 + 1` times in a `b` of length at least 200 is "popular" and
removed from `b2j`, so its lookup yields no positions. -/
def b2jPurged (b : List DElem) (x : DElem) : List Nat :=
  let idxs := positions b x
  if 200 ≤ b.length ∧ b.length / 100 + 1 < idxs.length then [] else idxs

/-- The running best match `(besti, bestj, bestsize)` of
`find_longest_match`. -/
structure FlmState where
  besti : Nat
  bestj : Nat
  bestsize : Nat
deriving DecidableEq

/-- Inner loop of `find_longest_match` over the `b2j` positions of `a[i]`:
`j < blo` is `continue`, `j >= bhi` is `break`; otherwise
`k = newj2len[j] = j2len.get(j-1, 0) + 1` (the `j = 0` guard stands in for
Python's `get(-1, 0)`; `k ≤ i + 1` always holds, so the `Nat` subtractions
in `i-k+1`, `j-k+1` are exact), updating the best on strict improvement. -/
def innerLoop (blo bhi : Nat) (j2len : Nat → Nat) (i : Nat) :
    List Nat → (Nat → Nat) → FlmState → ((Nat → Nat) × FlmState)
  | [], newd, st => (newd, st)
  | j :: js, newd, st =>
    if j < blo then innerLoop blo bhi j2len i js newd st
    else if bhi ≤ j then (newd, st)
    else
      let k := (if j = 0 then 0 else j2len (j - 1)) + 1
      let newd' : Nat → Nat := fun j' => if j' = j then k else newd j'
      let st' := if st.bestsize < k then FlmState.mk (i + 1 - k) (j + 1 - k) k else st
      innerLoop blo bhi j2len i js newd' st'

/-- `[s, s+1, ..., s+n-1]` (Python `range(alo, ahi)` reindexed). -/
def rangeN : Nat → Nat → List Nat
  | _, 0 => []
  | s, n + 1 => s :: rangeN (s + 1) n

/-- Outer loop of `find_longest_match` over `i in range(alo, ahi)`,
threading `j2len` (reset to the empty dict at each step). -/
def flmLoop (a b : List DElem) (blo bhi : Nat) :
    List Nat → (Nat → Nat) → FlmState → FlmState
  | [], _, st => st
  | i :: rest, j2len, st =>
    let r := innerLoop blo bhi j2len i (b2jPurged b (lget a i)) (fun _ => 0) st
    flmLoop a b blo bhi rest r.1 r.2

/-- First extension loop: grow the best block backwards over equal
(non-junk, and the junk set is empty here) elements.  The fuel passed by
the caller, `besti`, dominates the possible iteration count, so the loop
is exact. -/
def extendBackward (a b : List DElem) (alo blo : Nat) : Nat → FlmState → FlmState
  | 0, st => st
  | fuel + 1, st =>
    if alo < st.besti ∧ blo < st.bestj ∧ lget a (st.besti - 1) = lget b (st.bestj - 1) then
      extendBackward a b alo blo fuel (FlmState.mk (st.besti - 1) (st.bestj - 1) (st.bestsize + 1))
    else st

/-- Second extension loop: grow the best block forwards over equal
elements; fuel `ahi` dominates the iteration count. -/
def extendForward (a b : List DElem) (ahi bhi : Nat) : Nat → FlmState → FlmState
  | 0, st => st
  | fuel + 1, st =>
    if st.besti + st.bestsize < ahi ∧ st.bestj + st.bestsize < bhi ∧
        lget a (st.besti + st.bestsize) = lget b (st.bestj + st.bestsize) then
      extendForward a b ahi bhi fuel (FlmState.mk st.besti st.bestj (st.bestsize + 1))
    else st

/-- Embeds `SequenceMatcher.find_longest_match` on `a[alo:ahi]`,
`b[blo:bhi]`. -/
def find_longest_match (a b : List DElem) (alo ahi blo bhi : Nat) : FlmState :=
  extendForward a b ahi bhi ahi
    (extendBackward a b alo blo
      (flmLoop a b blo bhi (rangeN alo (ahi - alo)) (fun _ => 0) (FlmState.mk alo blo 0)).besti
      (flmLoop a b blo bhi (rangeN alo (ahi - alo)) (fun _ => 0) (FlmState.mk alo blo 0)))

/-- Recursive core of `get_matching_blocks` (the source's queue plus final
sort, rendered as in-order recursion; fuel dominates the recursion depth
because each non-trivial split strictly shrinks `ahi - alo`). -/
def mbRec (a b : List DElem) : Nat → Nat → Nat → Nat → Nat → List (Nat × Nat × Nat)
  | 0, _, _, _, _ => []
  | fuel + 1, alo, ahi, blo, bhi =>
    let m := find_longest_match a b alo ahi blo bhi
    if 0 < m.bestsize then
      mbRec a b fuel alo m.besti blo m.bestj ++ [(m.besti, m.bestj, m.bestsize)] ++
        mbRec a b fuel (m.besti + m.bestsize) ahi (m.bestj + m.bestsize) bhi
    else []

/-- The adjacent-block merge at the end of `get_matching_blocks`, plus the
`(la, lb, 0)` terminator. -/
def mergeBlocks (la lb : Nat) (blocks : List (Nat × Nat × Nat)) : List (Nat × Nat × Nat) :=
  let fin := blocks.foldl (fun (acc : (Nat × Nat × Nat) × List (Nat × Nat × Nat)) blk =>
    let i1 := acc.1.1
    let j1 := acc.1.2.1
    let k1 := acc.1.2.2
    if i1 + k1 = blk.1 ∧ j1 + k1 = blk.2.1 then ((i1, j1, k1 + blk.2.2), acc.2)
    else ((blk.1, blk.2.1, blk.2.2), if k1 ≠ 0 then acc.2 ++ [(i1, j1, k1)] else acc.2))
    ((0, 0, 0), [])
  (if fin.1.2.2 ≠ 0 then fin.2 ++ [fin.1] else fin.2) ++ [(la, lb, 0)]

/-- Embeds `SequenceMatcher.get_matching_blocks`. -/
def get_matching_blocks (a b : List DElem) : List (Nat × Nat × Nat) :=
  mergeBlocks a.length b.length
    (mbRec a b (a.length + b.length + 1) 0 a.length 0 b.length)

/-- Opcode tags of `get_opcodes`. -/
inductive OpTag where
  | replace : OpTag
  | delete : OpTag
  | insert : OpTag
  | equal : OpTag
deriving DecidableEq

structure Opcode where
  tag : OpTag
  i1 : Nat
  i2 : Nat
  j1 : Nat
  j2 : Nat
deriving DecidableEq

/-- Fold state for `get_opcodes`. -/
structure OpcState where
  i : Nat
  j : Nat
  ans : List Opcode

/-- One step of the `get_opcodes` loop over matching blocks. -/
def opcStep (acc : OpcState) (blk : Nat × Nat × Nat) : OpcState :=
  let ai := blk.1
  let bj := blk.2.1
  let size := blk.2.2
  let ans1 :=
    if acc.i < ai ∧ acc.j < bj then acc.ans ++ [Opcode.mk .replace acc.i ai acc.j bj]
    else if acc.i < ai then acc.ans ++ [Opcode.mk .delete acc.i ai acc.j bj]
    else if acc.j < bj then acc.ans ++ [Opcode.mk .insert acc.i ai acc.j bj]
    else acc.ans
  let ans2 := if 0 < size then ans1 ++ [Opcode.mk .equal ai (ai + size) bj (bj + size)] else ans1
  OpcState.mk (ai + size) (bj + size) ans2

/-- Embeds `SequenceMatcher.get_opcodes` given the matching blocks. -/
def get_opcodes_from_blocks (blocks : List (Nat × Nat × Nat)) : List Opcode :=
  (blocks.foldl opcStep (OpcState.mk 0 0 [])).ans

/-- `get_grouped_opcodes`: shrink a leading `equal` opcode to `n` context
lines (`Nat` subtraction plays Python's `max(i1, i2-n)` since `i1 ≤ i2`
and results are clamped at 0). -/
def adjustFirst (n : Nat) : List Opcode → List Opcode
  | [] => []
  | c :: rest =>
    if c.tag = OpTag.equal then
      Opcode.mk c.tag (max c.i1 (c.i2 - n)) c.i2 (max c.j1 (c.j2 - n)) c.j2 :: rest
    else c :: rest

/-- `get_grouped_opcodes`: shrink a trailing `equal` opcode likewise. -/
def adjustLast (n : Nat) (codes : List Opcode) : List Opcode :=
  match codes.getLast? with
  | none => []
  | some c =>
    codes.dropLast ++
      [if c.tag = OpTag.equal then
        Opcode.mk c.tag c.i1 (min c.i2 (c.i1 + n)) c.j1 (min c.j2 (c.j1 + n))
       else c]

/-- Fold state for the grouping loop of `get_grouped_opcodes`. -/
structure GrpState where
  gs : List (List Opcode)
  g : List Opcode

/-- One step of the grouping loop: a long-enough `equal` run closes the
current group (keeping `n` context lines on each side). -/
def grpStep (n : Nat) (acc : GrpState) (c : Opcode) : GrpState :=
  if c.tag = OpTag.equal ∧ n + n < c.i2 - c.i1 then
    GrpState.mk
      (acc.gs ++ [acc.g ++ [Opcode.mk c.tag c.i1 (min c.i2 (c.i1 + n)) c.j1 (min c.j2 (c.j1 + n))]])
      [Opcode.mk c.tag (max c.i1 (c.i2 - n)) c.i2 (max c.j1 (c.j2 - n)) c.j2]
  else GrpState.mk acc.gs (acc.g ++ [c])

/-- Embeds `SequenceMatcher.get_grouped_opcodes(n)`: seed `equal 0 1 0 1`
when there are no opcodes, trim the outer context, group around the
changed runs, and drop a final group that is a single `equal` opcode. -/
def get_grouped_opcodes (n : Nat) (codes0 : List Opcode) : List (List Opcode) :=
  let codes1 := if codes0.isEmpty then [Opcode.mk .equal 0 1 0 1] else codes0
  let codes3 := adjustLast n (adjustFirst n codes1)
  let fin := codes3.foldl (grpStep n) (GrpState.mk [] [])
  match fin.g with
  | [] => fin.gs
  | [c] => if c.tag = OpTag.equal then fin.gs else fin.gs ++ [[c]]
  | _ => fin.gs ++ [fin.g]

/-- `difflib._format_range_context`. -/
def formatRangeContext (start stop : Nat) : List Char :=
  let len := stop - start
  let beginning := if len = 0 then start else start + 1
  if len ≤ 1 then natToDec beginning
  else natToDec beginning ++ [','] ++ natToDec (beginning + len - 1)

/-- The line prefix `context_diff` uses for each opcode tag. -/
def prefixFor : OpTag → List Char
  | .insert => chars "+ "
  | .delete => chars "- "
  | .replace => chars "! "
  | .equal => chars "  "

/-- Python list slicing, `a[i1:i2]`. -/
def pySlice (a : List DElem) (i1 i2 : Nat) : List DElem := (a.drop i1).take (i2 - i1)

/-- The lines `context_diff` yields for one group. -/
def renderGroup (a b : List DElem) (group : List Opcode) : List DElem :=
  match group with
  | [] => []
  | first :: _ =>
    let last := group.getLastD first
    let sep1 := chars "***************" ++ [chNL]
    let hdr1 := chars "*** " ++ formatRangeContext first.i1 last.i2 ++ chars " ****" ++ [chNL]
    let fromLines :=
      if group.any (fun g => decide (g.tag = OpTag.replace ∨ g.tag = OpTag.delete)) then
        group.flatMap (fun g =>
          if g.tag ≠ OpTag.insert then
            (pySlice a g.i1 g.i2).map (fun line => prefixFor g.tag ++ line)
          else [])
      else []
    let hdr2 := chars "--- " ++ formatRangeContext first.j1 last.j2 ++ chars " ----" ++ [chNL]
    let toLines :=
      if group.any (fun g => decide (g.tag = OpTag.replace ∨ g.tag = OpTag.insert)) then
        group.flatMap (fun g =>
          if g.tag ≠ OpTag.delete then
            (pySlice b g.j1 g.j2).map (fun line => prefixFor g.tag ++ line)
          else [])
      else []
    sep1 :: hdr1 :: (fromLines ++ (hdr2 :: toLines))

/-- The two file-header lines `context_diff` yields before the first group
(empty file names and dates, `lineterm='\n'`). -/
def ctxHeader : List DElem := [chars "*** " ++ [chNL], chars "--- " ++ [chNL]]

/-- Embeds `difflib.context_diff(a, b)` as the list of yielded lines:
nothing at all when there are no grouped opcodes, else the header followed
by each group's rendering. -/
def context_diff (a b : List DElem) : List DElem :=
  match get_grouped_opcodes 3 (get_opcodes_from_blocks (get_matching_blocks a b)) with
  | [] => []
  | g :: gs => ctxHeader ++ (g :: gs).flatMap (renderGroup a b)

/-- `"\n".join(lines)`. -/
def joinNL (lines : List DElem) : List Char := List.intercalate [chNL] lines

/-! ### `get_string_diff` and `get_tree_diff` -/

/-- Embeds `str.replace('\n', '')`: delete every newline character. -/
def removeChar (c : Char) (s : List Char) : List Char := s.filter (fun x => x ≠ c)

/-- Embeds `re.split(sep, s)` for a literal (metacharacter-free) pattern:
split at each non-overlapping, leftmost occurrence of `sep`.  Fuel
dominates the length of `s`, so the recursion is exact. -/
def splitLitAux (sep : List Char) : Nat → List Char → List Char → List (List Char)
  | 0, acc, s => [acc.reverse ++ s]
  | fuel + 1, acc, s =>
    match s with
    | [] => [acc.reverse]
    | c :: rest =>
      if sep ≠ [] ∧ sep.isPrefixOf (c :: rest) then
        acc.reverse :: splitLitAux sep fuel [] ((c :: rest).drop sep.length)
      else splitLitAux sep fuel (c :: acc) rest

def reSplitLit (sep s : List Char) : List (List Char) :=
  splitLitAux sep (s.length + 1) [] s

/-- Embeds `str.splitlines(keepends=True)` for `\n`-terminated text (the
further Unicode line boundaries are outside the modelled fragment). -/
def splitlinesKeepAux : List Char → List Char → List (List Char)
  | acc, [] => if acc.isEmpty then [] else [acc.reverse]
  | acc, c :: rest =>
    if c = chNL then (acc.reverse ++ [chNL]) :: splitlinesKeepAux [] rest
    else splitlinesKeepAux (c :: acc) rest

def splitlinesKeep (s : List Char) : List (List Char) := splitlinesKeepAux [] s

/-- The separator-branch preprocessing of `get_string_diff`: strip
newlines, split by the pattern, drop empty units. -/
def stringDiffPrep (sep s : List Char) : List DElem :=
  (reSplitLit sep (removeChar chNL s)).filter (fun u => u ≠ [])

/-- Embeds `get_string_diff`: with no separator, context-diff the
keepends-split lines; with a separator, context-diff the preprocessed
unit lists; either way join the diff lines with newlines. -/
def get_string_diff (original revised : List Char) (sep : Option (List Char)) : List Char :=
  match sep with
  | none => joinNL (context_diff (splitlinesKeep original) (splitlinesKeep revised))
  | some sp => joinNL (context_diff (stringDiffPrep sp original) (stringDiffPrep sp revised))

/-- Embeds `get_tree_diff`: context-diff the two flattened trees and join
with newlines. -/
def get_tree_diff (original revised : LTree) : List Char :=
  joinNL (context_diff (flatten_tree original) (flatten_tree revised))

/-! ### Specification-side definitions used by the claims -/

/-- Specification-side value of one lower-case hex digit character. -/
def hexDigitVal (c : Char) : Nat :=
  if 97 ≤ c.toNat then c.toNat - 87 else c.toNat - 48

/-- Specification-side base-16 value of a digit string (what
`int(digits, 16)` computes). -/
def hexValue (ds : List Char) : Nat :=
  ds.foldl (fun a c => 16 * a + hexDigitVal c) 0

/-- Specification-side characterisation of a lower-case hex digit
character (`0`-`9` or `a`-`f`). -/
def isLowerHexDigit (c : Char) : Prop :=
  (48 ≤ c.toNat ∧ c.toNat ≤ 57) ∨ (97 ≤ c.toNat ∧ c.toNat ≤ 102)

instance (c : Char) : Decidable (isLowerHexDigit c) := by
  unfold isLowerHexDigit
  infer_instance

/-- A token with the given value (the spec's `token_with_value`). -/
def mkTok (v : List Char) : TokenData :=
  TokenData.mk v (chars "CW") 1 1 0 0

/-- Proof-side semantic value of one `j2len` entry on the self-comparison
of `l`: the length of the common-run match ending at `(i, j)`, built from
exactly the positions the purged `b2j` exposes. -/
def Rrun (l : List DElem) : Nat → Nat → Nat
  | 0, j => if j ∈ b2jPurged l (lget l 0) then 1 else 0
  | i + 1, j =>
    if j ∈ b2jPurged l (lget l (i + 1)) then
      (if j = 0 then 1 else Rrun l i (j - 1) + 1)
    else 0

/-- The `j2len` dictionary contents before processing row `i₀` of the
self-comparison (empty before row 0, the runs of the previous row
afterwards). -/
def prevR (l : List DElem) : Nat → Nat → Nat
  | 0, _ => 0
  | i + 1, jj => Rrun l i jj

/-! ## Proofs

### `encode_escaped_control_chars` (claim C1) -/

theorem replace2_match (p1 p2 : Char) (rep : List Char) (c1 c2 : Char) (s : List Char)
    (h1 : c1 = p1) (h2 : c2 = p2) :
    replace2 p1 p2 rep (c1 :: c2 :: s) = rep ++ replace2 p1 p2 rep s := by
  simp [replace2, h1, h2]

theorem replace2_cons2_ne (p1 p2 : Char) (rep : List Char) (c1 c2 : Char) (s : List Char)
    (h : ¬(c1 = p1 ∧ c2 = p2)) :
    replace2 p1 p2 rep (c1 :: c2 :: s) = c1 :: replace2 p1 p2 rep (c2 :: s) := by
  simp only [replace2, if_neg h]

theorem replace2_cons_ne (p1 p2 : Char) (rep : List Char) (c : Char) (s : List Char)
    (h : c ≠ p1) :
    replace2 p1 p2 rep (c :: s) = c :: replace2 p1 p2 rep s := by
  cases s with
  | nil => rfl
  | cons d t => simp [replace2, h]

theorem r2_esc5c (x : List Char) :
    replace2 chBS chOB esc7b (esc5c ++ x) = esc5c ++ replace2 chBS chOB esc7b x := by
  show replace2 chBS chOB esc7b (chBS :: chSQ :: '5' :: 'c' :: x) =
    chBS :: chSQ :: '5' :: 'c' :: replace2 chBS chOB esc7b x
  rw [replace2_cons2_ne _ _ _ _ _ _ (by decide), replace2_cons_ne _ _ _ _ _ (by decide),
      replace2_cons_ne _ _ _ _ _ (by decide), replace2_cons_ne _ _ _ _ _ (by decide)]

theorem r3_esc5c (x : List Char) :
    replace2 chBS chCB esc7d (esc5c ++ x) = esc5c ++ replace2 chBS chCB esc7d x := by
  show replace2 chBS chCB esc7d (chBS :: chSQ :: '5' :: 'c' :: x) =
    chBS :: chSQ :: '5' :: 'c' :: replace2 chBS chCB esc7d x
  rw [replace2_cons2_ne _ _ _ _ _ _ (by decide), replace2_cons_ne _ _ _ _ _ (by decide),
      replace2_cons_ne _ _ _ _ _ (by decide), replace2_cons_ne _ _ _ _ _ (by decide)]

theorem r3_esc7b (x : List Char) :
    replace2 chBS chCB esc7d (esc7b ++ x) = esc7b ++ replace2 chBS chCB esc7d x := by
  show replace2 chBS chCB esc7d (chBS :: chSQ :: '7' :: 'b' :: x) =
    chBS :: chSQ :: '7' :: 'b' :: replace2 chBS chCB esc7d x
  rw [replace2_cons2_ne _ _ _ _ _ _ (by decide), replace2_cons_ne _ _ _ _ _ (by decide),
      replace2_cons_ne _ _ _ _ _ (by decide), replace2_cons_ne _ _ _ _ _ (by decide)]

theorem escScan_cons_ne (c : Char) (s : List Char) (h : c ≠ chBS) :
    escScan (c :: s) = c :: escScan s := by
  cases s with
  | nil => rfl
  | cons d t => simp [escScan, h]

theorem encode_eq_escScan : ∀ t : List Char, encode_escaped_control_chars t = escScan t
  | [] => rfl
  | [c] => rfl
  | c1 :: c2 :: rest => by
    show replace2 chBS chCB esc7d (replace2 chBS chOB esc7b
      (replace2 chBS chBS esc5c (c1 :: c2 :: rest))) = escScan (c1 :: c2 :: rest)
    by_cases hbb : c1 = chBS ∧ c2 = chBS
    · obtain ⟨rfl, rfl⟩ := hbb
      rw [replace2_match _ _ _ _ _ _ rfl rfl, r2_esc5c, r3_esc5c]
      have hs : escScan (chBS :: chBS :: rest) = esc5c ++ escScan rest := by
        simp [escScan]
      rw [hs]
      exact congrArg (esc5c ++ ·) (encode_eq_escScan rest)
    · by_cases hob : c1 = chBS ∧ c2 = chOB
      · obtain ⟨rfl, rfl⟩ := hob
        rw [replace2_cons2_ne chBS chBS esc5c chBS chOB rest (by decide),
            replace2_cons_ne chBS chBS esc5c chOB rest (by decide),
            replace2_match chBS chOB esc7b chBS chOB (replace2 chBS chBS esc5c rest) rfl rfl,
            r3_esc7b]
        have hs : escScan (chBS :: chOB :: rest) = esc7b ++ escScan rest := by
          simp [escScan, show chOB ≠ chBS by decide]
        rw [hs]
        exact congrArg (esc7b ++ ·) (encode_eq_escScan rest)
      · by_cases hcb : c1 = chBS ∧ c2 = chCB
        · obtain ⟨rfl, rfl⟩ := hcb
          rw [replace2_cons2_ne chBS chBS esc5c chBS chCB rest (by decide),
              replace2_cons_ne chBS chBS esc5c chCB rest (by decide),
              replace2_cons2_ne chBS chOB esc7b chBS chCB
                (replace2 chBS chBS esc5c rest) (by decide),
              replace2_cons_ne chBS chOB esc7b chCB
                (replace2 chBS chBS esc5c rest) (by decide),
              replace2_match chBS chCB esc7d chBS chCB
                (replace2 chBS chOB esc7b (replace2 chBS chBS esc5c rest)) rfl rfl]
          have hs : escScan (chBS :: chCB :: rest) = esc7d ++ escScan rest := by
            simp [escScan, show chCB ≠ chBS by decide, show chCB ≠ chOB by decide]
          rw [hs]
          exact congrArg (esc7d ++ ·) (encode_eq_escScan rest)
        · by_cases h1 : c1 = chBS
          · subst h1
            have h2b : c2 ≠ chBS := fun h => hbb ⟨rfl, h⟩
            have h2o : c2 ≠ chOB := fun h => hob ⟨rfl, h⟩
            have h2c : c2 ≠ chCB := fun h => hcb ⟨rfl, h⟩
            rw [replace2_cons2_ne chBS chBS esc5c chBS c2 rest (by simp [h2b]),
                replace2_cons_ne chBS chBS esc5c c2 rest h2b,
                replace2_cons2_ne chBS chOB esc7b chBS c2
                  (replace2 chBS chBS esc5c rest) (by simp [h2o]),
                replace2_cons_ne chBS chOB esc7b c2
                  (replace2 chBS chBS esc5c rest) h2b,
                replace2_cons2_ne chBS chCB esc7d chBS c2
                  (replace2 chBS chOB esc7b (replace2 chBS chBS esc5c rest)) (by simp [h2c]),
                replace2_cons_ne chBS chCB esc7d c2
                  (replace2 chBS chOB esc7b (replace2 chBS chBS esc5c rest)) h2b]
            have hs : escScan (chBS :: c2 :: rest) = chBS :: c2 :: escScan rest := by
              simp [escScan, h2b, h2o, h2c, escScan_cons_ne c2 rest h2b]
            rw [hs]
            exact congrArg (fun l => chBS :: c2 :: l) (encode_eq_escScan rest)
          · rw [replace2_cons2_ne chBS chBS esc5c c1 c2 rest (by simp [h1]),
                replace2_cons_ne chBS chOB esc7b c1
                  (replace2 chBS chBS esc5c (c2 :: rest)) h1,
                replace2_cons_ne chBS chCB esc7d c1
                  (replace2 chBS chOB esc7b (replace2 chBS chBS esc5c (c2 :: rest))) h1]
            have hs : escScan (c1 :: c2 :: rest) = c1 :: escScan (c2 :: rest) := by
              simp [escScan, h1]
            rw [hs]
            exact congrArg (c1 :: ·) (encode_eq_escScan (c2 :: rest))

theorem escScan_id : ∀ t : List Char, chBS ∉ t → escScan t = t := by
  intro t
  induction t with
  | nil => intro _; rfl
  | cons c s ih =>
    intro h
    have hc : c ≠ chBS := fun hcc => h (hcc ▸ List.mem_cons_self c s)
    have hs : chBS ∉ s := fun hm => h (List.mem_cons_of_mem c hm)
    rw [escScan_cons_ne c s hc, ih hs]

/-- Claim C1 is false on the code: `encode_escaped_control_chars` replaces
the two-character escaped sequences, not single literal characters, so on
the three-character input backslash, open-brace, close-brace it produces
exactly one escape sequence (for the backslash-openbrace pair), not
three. -/
theorem C1_counterexample :
    encode_escaped_control_chars [chBS, chOB, chCB] = esc7b ++ [chCB] ∧
    encode_escaped_control_chars [chBS, chOB, chCB] ≠ esc5c ++ esc7b ++ esc7d := by
  constructor
  · decide
  · decide

/-- Claim C1 (amended): for every input string `t`,
`encode_escaped_control_chars t` replaces every occurrence of the escaped
pair backslash-backslash with `esc5c`, backslash-openbrace with `esc7b`
and backslash-closebrace with `esc7d` in a single left-to-right scan
(equivalently, as the three sequential substring replacements of the
source), and leaves all other characters unchanged; in particular any text
without a backslash is returned unchanged, and on the three-character
input backslash, open-brace, close-brace it produces exactly one escape
sequence, `esc7b`, followed by the untouched close-brace. -/
theorem C1_amended_thm :
    (∀ t : List Char, encode_escaped_control_chars t = escScan t) ∧
    (∀ t : List Char, chBS ∉ t → encode_escaped_control_chars t = t) ∧
    encode_escaped_control_chars [chBS, chOB, chCB] = esc7b ++ [chCB] := by
  refine ⟨encode_eq_escScan, ?_, by decide⟩
  intro t ht
  rw [encode_eq_escScan t, escScan_id t ht]

/-- Witness for the hypothesis-bearing part of `C1_amended_thm` at the
concrete backslash-free input `"abc"`. -/
theorem C1_amended_witness :
    chBS ∉ chars "abc" ∧ encode_escaped_control_chars (chars "abc") = chars "abc" :=
  ⟨by decide, C1_amended_thm.2.1 (chars "abc") (by decide)⟩

/-! ### The hex encoder (claims C3, C5, C6, C10) -/



theorem hexDigit_val (d : Nat) (h : d < 16) : hexDigitVal (hexDigit d) = d := by
  interval_cases d <;> decide

theorem hexDigit_lower (d : Nat) (h : d < 16) : isLowerHexDigit (hexDigit d) := by
  interval_cases d <;> decide

theorem hexValue_append (ds : List Char) (c : Char) :
    hexValue (ds ++ [c]) = 16 * hexValue ds + hexDigitVal c := by
  unfold hexValue
  rw [List.foldl_append]
  rfl

theorem natToHexAux_val : ∀ fuel n, n ≤ fuel → hexValue (natToHexAux fuel n) = n := by
  intro fuel
  induction fuel with
  | zero =>
    intro n h
    interval_cases n
    decide
  | succ fuel ih =>
    intro n h
    by_cases hn : n < 16
    · have hrw : natToHexAux (fuel + 1) n = [hexDigit n] := by simp [natToHexAux, hn]
      rw [hrw]
      show 16 * 0 + hexDigitVal (hexDigit n) = n
      rw [hexDigit_val n hn]
      omega
    · have hd : n / 16 ≤ fuel := by
        have := Nat.div_lt_self (by omega : 0 < n) (by omega : 1 < 16)
        omega
      have hrw : natToHexAux (fuel + 1) n =
          natToHexAux fuel (n / 16) ++ [hexDigit (n % 16)] := by
        simp [natToHexAux, hn]
      rw [hrw, hexValue_append, ih (n / 16) hd,
          hexDigit_val (n % 16) (Nat.mod_lt n (by omega))]
      omega

theorem pow16_pred (k : Nat) (h : 1 ≤ k) : 16 ^ (k - 1) * 16 = 16 ^ k := by
  conv_rhs => rw [show k = (k - 1) + 1 by omega]
  rw [pow_succ]

theorem natToHexAux_len_le : ∀ fuel n k, n ≤ fuel → n < 16 ^ k → 1 ≤ k →
    (natToHexAux fuel n).length ≤ k := by
  intro fuel
  induction fuel with
  | zero =>
    intro n k h hk h1
    interval_cases n
    simpa [natToHexAux] using h1
  | succ fuel ih =>
    intro n k h hk h1
    by_cases hn : n < 16
    · simp [natToHexAux, hn]
      omega
    · have hk2 : 2 ≤ k := by
        by_contra hlt
        have hk1 : k = 1 := by omega
        subst hk1
        simp [pow_one] at hk
        omega
      have hd : n / 16 ≤ fuel := by
        have := Nat.div_lt_self (by omega : 0 < n) (by omega : 1 < 16)
        omega
      have hdk : n / 16 < 16 ^ (k - 1) := by
        rw [Nat.div_lt_iff_lt_mul (by omega : 0 < 16), pow16_pred k (by omega)]
        exact hk
      have hrec := ih (n / 16) (k - 1) hd hdk (by omega)
      simp [natToHexAux, hn]
      omega

theorem natToHexAux_len_pos : ∀ fuel n, 1 ≤ (natToHexAux fuel n).length := by
  intro fuel n
  cases fuel with
  | zero => simp [natToHexAux]
  | succ fuel =>
    by_cases hn : n < 16
    · simp [natToHexAux, hn]
    · simp [natToHexAux, hn]

theorem natToHexAux_len_ge : ∀ fuel n k, n ≤ fuel → 16 ^ k ≤ n →
    k + 1 ≤ (natToHexAux fuel n).length := by
  intro fuel
  induction fuel with
  | zero =>
    intro n k h hk
    have h1 : 1 ≤ n := le_trans (Nat.one_le_pow k 16 (by omega)) hk
    omega
  | succ fuel ih =>
    intro n k h hk
    by_cases hn : n < 16
    · have hk0 : k = 0 := by
        by_contra hne
        have hle : 16 ^ 1 ≤ 16 ^ k := Nat.pow_le_pow_right (by omega) (by omega)
        simp [pow_one] at hle
        omega
      subst hk0
      have := natToHexAux_len_pos (fuel + 1) n
      omega
    · rcases Nat.eq_zero_or_pos k with hk0 | hkpos
      · subst hk0
        have := natToHexAux_len_pos (fuel + 1) n
        omega
      · have hd : n / 16 ≤ fuel := by
          have := Nat.div_lt_self (by omega : 0 < n) (by omega : 1 < 16)
          omega
        have hdk : 16 ^ (k - 1) ≤ n / 16 := by
          rw [Nat.le_div_iff_mul_le (by omega : 0 < 16), pow16_pred k (by omega)]
          exact hk
        have hrec := ih (n / 16) (k - 1) hd hdk
        simp [natToHexAux, hn]
        omega

theorem natToHexAux_lower : ∀ fuel n c, c ∈ natToHexAux fuel n → isLowerHexDigit c := by
  intro fuel
  induction fuel with
  | zero =>
    intro n c hc
    simp [natToHexAux] at hc
    subst hc
    exact hexDigit_lower _ (Nat.mod_lt n (by omega))
  | succ fuel ih =>
    intro n c hc
    by_cases hn : n < 16
    · simp [natToHexAux, hn] at hc
      subst hc
      exact hexDigit_lower n hn
    · simp [natToHexAux, hn] at hc
      rcases hc with hc | hc
      · exact ih (n / 16) c hc
      · subst hc
        exact hexDigit_lower _ (Nat.mod_lt n (by omega))

theorem hexValue_replicate_zero : ∀ (m : Nat) (ds : List Char),
    hexValue (List.replicate m '0' ++ ds) = hexValue ds := by
  intro m
  induction m with
  | zero => intro ds; rfl
  | succ m ih =>
    intro ds
    rw [List.replicate_succ, List.cons_append]
    show hexValue (List.replicate m '0' ++ ds) = hexValue ds
    exact ih ds

/-- Claim C3: for every integer `n` with `0 ≤ n ≤ 0xFFFF`,
`get_control_parameter_as_hex_strings n` returns (without raising) a
6-character string: the `0x` marker followed by exactly 4 lower-case,
zero-padded hex digits whose base-16 value is `n`. -/
theorem C3_hex_shape (n : Nat) (h : n ≤ 0xFFFF) :
    ∃ ds : List Char,
      get_control_parameter_as_hex_strings (CtrlParam.int (n : Int)) =
        Except.ok ('0' :: 'x' :: ds) ∧
      ('0' :: 'x' :: ds).length = 6 ∧ ds.length = 4 ∧
      (∀ c ∈ ds, isLowerHexDigit c) ∧ hexValue ds = n := by
  have hlen : (natToHex n).length ≤ 4 :=
    natToHexAux_len_le n n 4 le_rfl (by omega) (by omega)
  refine ⟨zfill 4 (natToHex n), ?_, ?_, ?_, ?_, ?_⟩
  · show Except.ok (formatHash06x (n : Int)) = _
    have h0 : (0 : Int) ≤ (n : Int) := Int.ofNat_nonneg n
    simp [formatHash06x, h0]
  · simp [zfill]
    omega
  · simp [zfill]
    omega
  · intro c hc
    simp [zfill] at hc
    rcases hc with hc | hc
    · rw [hc.2]
      decide
    · exact natToHexAux_lower n n c hc
  · rw [show zfill 4 (natToHex n) =
        List.replicate (4 - (natToHex n).length) '0' ++ natToHex n from rfl,
        hexValue_replicate_zero]
    exact natToHexAux_val n n le_rfl

/-- Witness for `C3_hex_shape` at `n = 10` (where the encoder yields
`0x000a`). -/
theorem C3_hex_shape_witness :
    (10 : Nat) ≤ 0xFFFF ∧
    ∃ ds : List Char,
      get_control_parameter_as_hex_strings (CtrlParam.int ((10 : Nat) : Int)) =
        Except.ok ('0' :: 'x' :: ds) ∧
      ('0' :: 'x' :: ds).length = 6 ∧ ds.length = 4 ∧
      (∀ c ∈ ds, isLowerHexDigit c) ∧ hexValue ds = 10 :=
  ⟨by decide, C3_hex_shape 10 (by decide)⟩

/-- Claim C10: for every integer `n > 0xFFFF` the encoder returns a string
strictly longer than 6 characters — the 6-character width is only a
minimum. -/
theorem C10_width_minimum (n : Nat) (h : 0xFFFF < n) :
    ∃ s : List Char,
      get_control_parameter_as_hex_strings (CtrlParam.int (n : Int)) = Except.ok s ∧
      6 < s.length := by
  refine ⟨formatHash06x (n : Int), rfl, ?_⟩
  have h0 : (0 : Int) ≤ (n : Int) := Int.ofNat_nonneg n
  have hge : 5 ≤ (natToHex n).length := natToHexAux_len_ge n n 4 le_rfl (by omega)
  simp [formatHash06x, h0, zfill]
  omega

/-- Witness for `C10_width_minimum` at `n = 0x10000` (encoded as the
7-character `0x10000`). -/
theorem C10_width_minimum_witness :
    (0xFFFF : Nat) < 65536 ∧
    ∃ s : List Char,
      get_control_parameter_as_hex_strings (CtrlParam.int ((65536 : Nat) : Int)) = Except.ok s ∧
      6 < s.length :=
  ⟨by decide, C10_width_minimum 65536 (by decide)⟩

theorem digit_not_space (c : Char) (h : isDigitCh c = true) : isSpaceCh c = false := by
  simp [isDigitCh] at h
  simp [isSpaceCh]
  omega

theorem dropWhile_eq_self_of_not (p : Char → Bool) :
    ∀ s : List Char, (∀ c ∈ s, p c = false) → s.dropWhile p = s := by
  intro s
  cases s with
  | nil => intro _; rfl
  | cons c t =>
    intro h
    have hc : p c = false := h c (List.mem_cons_self c t)
    simp [List.dropWhile, hc]

theorem stripPy_digits (s : List Char) (h : ∀ c ∈ s, isDigitCh c = true) :
    stripPy s = s := by
  have hns : ∀ c ∈ s, isSpaceCh c = false := fun c hc => digit_not_space c (h c hc)
  unfold stripPy
  rw [dropWhile_eq_self_of_not isSpaceCh s hns,
      dropWhile_eq_self_of_not isSpaceCh s.reverse
        (fun c hc => hns c (List.mem_reverse.mp hc)),
      List.reverse_reverse]

theorem pyIntOfString_digits (s : List Char) (hne : s ≠ [])
    (h : ∀ c ∈ s, isDigitCh c = true) :
    pyIntOfString s = some ((decValue s : Nat) : Int) := by
  cases s with
  | nil => exact absurd rfl hne
  | cons c rest =>
    have hc : isDigitCh c = true := h c (List.mem_cons_self c rest)
    have hplus : c ≠ '+' := by
      intro hcc
      subst hcc
      simp [isDigitCh] at hc
    have hminus : c ≠ '-' := by
      intro hcc
      subst hcc
      simp [isDigitCh] at hc
    have hall : (c :: rest).all isDigitCh = true := List.all_eq_true.mpr h
    unfold pyIntOfString
    rw [stripPy_digits (c :: rest) h]
    simp only [hplus, hminus, if_false, if_neg hplus, if_neg hminus, hall, if_pos, if_true]

/-- Claim C5: `get_control_parameter_as_hex_strings` raises the
`ValueError` the spec calls `InvalidParameter` exactly when its argument
cannot be interpreted as an integer (a string rejected by `int(...)`);
every `int` argument and every `int(...)`-convertible string returns
normally. -/
theorem C5_invalid_parameter :
    (∀ x : CtrlParam,
      get_control_parameter_as_hex_strings x = Except.error PyErr.valueError ↔
        (∃ s, x = CtrlParam.str s ∧ pyIntOfString s = none)) ∧
    (∀ n : Int,
      get_control_parameter_as_hex_strings (CtrlParam.int n) = Except.ok (formatHash06x n)) ∧
    (∀ (s : List Char) (v : Int), pyIntOfString s = some v →
      get_control_parameter_as_hex_strings (CtrlParam.str s) = Except.ok (formatHash06x v)) := by
  refine ⟨?_, fun n => rfl, ?_⟩
  · intro x
    cases x with
    | int n => simp [get_control_parameter_as_hex_strings]
    | str s =>
      cases hs : pyIntOfString s with
      | none => simp [get_control_parameter_as_hex_strings, hs]
      | some v => simp [get_control_parameter_as_hex_strings, hs]
  · intro s v hv
    simp [get_control_parameter_as_hex_strings, hv]

/-- Witness for `C5_invalid_parameter`: the convertible string `"7"`
returns normally, via the theorem's third conjunct. -/
theorem C5_invalid_parameter_witness :
    pyIntOfString (chars "7") = some 7 ∧
    get_control_parameter_as_hex_strings (CtrlParam.str (chars "7")) =
      Except.ok (formatHash06x 7) :=
  ⟨by decide, C5_invalid_parameter.2.2 (chars "7") 7 (by decide)⟩

/-- Claim C6: for every non-empty string of decimal digits denoting `d`,
the encoder coerces the string to the integer `d` before formatting, so
the result equals encoding `d` directly; in particular
`encode_control_parameter("42") = encode_control_parameter(42)`. -/
theorem C6_string_coercion (s : List Char) (d : Nat) (hne : s ≠ [])
    (hdig : ∀ c ∈ s, isDigitCh c = true) (hval : decValue s = d) :
    get_control_parameter_as_hex_strings (CtrlParam.str s) =
      get_control_parameter_as_hex_strings (CtrlParam.int (d : Int)) := by
  have hp := pyIntOfString_digits s hne hdig
  rw [hval] at hp
  simp [get_control_parameter_as_hex_strings, hp]

/-- Witness for `C6_string_coercion` at the spec's own example
`"42"` versus `42`. -/
theorem C6_string_coercion_witness :
    get_control_parameter_as_hex_strings (CtrlParam.str (chars "42")) =
      get_control_parameter_as_hex_strings (CtrlParam.int ((42 : Nat) : Int)) :=
  C6_string_coercion (chars "42") 42 (by decide) (by decide) (by decide)

/-! ### The diagnostic gate (claim C2) -/

/-- Claim C2 is false on the code: at a verbosity level other than
`DEBUG` (here `logging.INFO = 20`), `log_htmlrtf_stripping` returns
without raising even for a non-token payload, so the error is *not*
raised regardless of the channel's verbosity level. -/
theorem C2_counterexample :
    log_htmlrtf_stripping 20 TokOrAny.nonTok = Except.ok LogResult.skipped ∧
    log_htmlrtf_stripping 20 TokOrAny.nonTok ≠ Except.error PyErr.attributeError := by
  refine ⟨rfl, ?_⟩
  intro h
  rw [show log_htmlrtf_stripping 20 TokOrAny.nonTok = Except.ok LogResult.skipped
    from rfl] at h
  exact Except.noConfusion h

/-- Claim C2 (amended): only when the channel's level equals `DEBUG` does
`log_htmlrtf_stripping` inspect its payload, and then it raises the
descriptive `AttributeError` (the spec's `MalformedDiagnosticPayload`) on
every non-token payload; at any other level it returns without raising,
skipping the check entirely. -/
theorem C2_amended_thm :
    (∀ (level : Nat) (data : TokOrAny), level = pyDEBUG →
      (∀ t, data ≠ TokOrAny.tok t) →
      log_htmlrtf_stripping level data = Except.error PyErr.attributeError) ∧
    (∀ (level : Nat) (data : TokOrAny), level ≠ pyDEBUG →
      log_htmlrtf_stripping level data = Except.ok LogResult.skipped) := by
  constructor
  · intro level data hlv hnt
    subst hlv
    cases data with
    | tok t => exact absurd rfl (hnt t)
    | nonTok => rfl
  · intro level data hlv
    simp [log_htmlrtf_stripping, hlv]

/-- Witness for `C2_amended_thm`: a non-token payload at `DEBUG` level 10
raises, and the same payload at `INFO` level 20 is silently skipped. -/
theorem C2_amended_witness :
    log_htmlrtf_stripping 10 TokOrAny.nonTok = Except.error PyErr.attributeError ∧
    log_htmlrtf_stripping 20 TokOrAny.nonTok = Except.ok LogResult.skipped :=
  ⟨C2_amended_thm.1 10 TokOrAny.nonTok rfl (fun t h => TokOrAny.noConfusion h),
   C2_amended_thm.2 20 TokOrAny.nonTok (by decide)⟩

/-! ### The token predicate (claim C4) -/



/-- Claim C4: `is_codeword_with_numeric_arg` is true exactly when the
argument is a token whose stripped value starts with the codeword and the
remaining suffix is non-empty and all decimal digits; it is false (and
total, hence never raises) on a non-token, and false on an exact match
with empty suffix — as the spec's three examples show. -/
theorem C4_numeric_codeword :
    (∀ (x : TokOrAny) (cw : List Char),
      is_codeword_with_numeric_arg x cw = true ↔
        ∃ t, x = TokOrAny.tok t ∧
          cw.isPrefixOf (stripPy t.value) = true ∧
          (stripPy t.value).drop cw.length ≠ [] ∧
          ∀ c ∈ (stripPy t.value).drop cw.length, isDigitCh c = true) ∧
    (∀ cw, is_codeword_with_numeric_arg TokOrAny.nonTok cw = false) ∧
    is_codeword_with_numeric_arg (TokOrAny.tok (mkTok (chars "foo123"))) (chars "foo") = true ∧
    is_codeword_with_numeric_arg (TokOrAny.tok (mkTok (chars "foo"))) (chars "foo") = false ∧
    is_codeword_with_numeric_arg (TokOrAny.tok (mkTok (chars "foox"))) (chars "foo") = false := by
  refine ⟨?_, fun cw => rfl, by decide, by decide, by decide⟩
  intro x cw
  cases x with
  | nonTok =>
    simp [is_codeword_with_numeric_arg]
  | tok t =>
    simp only [is_codeword_with_numeric_arg, Bool.and_eq_true, pyIsdigit,
      Bool.not_eq_true', List.isEmpty_eq_false_iff_exists_mem, List.all_eq_true,
      TokOrAny.tok.injEq, exists_eq_left']
    constructor
    · rintro ⟨hpre, hne, hall⟩
      refine ⟨hpre, ?_, hall⟩
      rcases hne with ⟨c, hc⟩
      intro hnil
      rw [hnil] at hc
      exact List.not_mem_nil c hc
    · rintro ⟨hpre, hne, hall⟩
      refine ⟨hpre, ?_, hall⟩
      rcases List.exists_mem_of_ne_nil _ hne with ⟨c, hc⟩
      exact ⟨c, hc⟩

/-! ### The tree flattener (claim C7) -/

theorem flattenSeq_eq_flatten :
    ∀ cs : ChildSeq, flattenSeq cs = ((seqToList cs).map flattenChild).flatten
  | .nil => by simp [flattenSeq, seqToList]
  | .cons c rest => by
    simp [flattenSeq, seqToList, flattenSeq_eq_flatten rest]

/-- Claim C7: `flatten_tree` yields a non-empty sequence headed by the
synthetic tree label `treeLabel tag`, followed in pre-order by one segment per
child: the token's full `repr` for a token, the recursive flattening
(itself headed by the subtree's own label) for a nested tree, and the
generic textual representation for any other scalar. -/
theorem C7_flatten_tree_shape :
    (∀ (tag : List Char) (cs : ChildSeq),
      flatten_tree (LTree.mk tag cs) =
        treeLabel tag :: ((seqToList cs).map flattenChild).flatten ∧
      flatten_tree (LTree.mk tag cs) ≠ [] ∧
      (flatten_tree (LTree.mk tag cs)).head? = some (treeLabel tag)) ∧
    (∀ t : TokenData, flattenChild (Child.tok t) = [tokenRepr t]) ∧
    (∀ sub : LTree, flattenChild (Child.sub sub) = flatten_tree sub) ∧
    (∀ r : List Char, flattenChild (Child.scalar r) = [r]) ∧
    (∀ sub : LTree,
      (flattenChild (Child.sub sub)).head? = some (treeLabel (treeTag sub))) := by
  have hunf : ∀ (tag : List Char) (cs : ChildSeq),
      flatten_tree (LTree.mk tag cs) = treeLabel tag :: flattenSeq cs := by
    intro tag cs
    simp [flatten_tree]
  refine ⟨?_, fun t => by simp [flattenChild], fun sub => by simp [flattenChild],
    fun r => by simp [flattenChild], ?_⟩
  · intro tag cs
    rw [hunf tag cs, flattenSeq_eq_flatten cs]
    exact ⟨rfl, by simp, rfl⟩
  · intro sub
    cases sub with
    | mk tag cs =>
      rw [show flattenChild (Child.sub (LTree.mk tag cs)) = flatten_tree (LTree.mk tag cs)
        from by simp [flattenChild], hunf tag cs]
      rfl

/-! ### difflib on equal sequences (claims C8, C9)

The goal is `context_diff l l = []` for every `l`.  The only hard step is
that `find_longest_match` on two equal sequences returns the whole range:
the `j2len` dynamic program can only ever improve the running best on the
diagonal (an off-diagonal run of the same length always has an earlier or
equal diagonal twin), and the two extension loops then grow the diagonal
best block to the full range. -/



theorem mem_positions (b : List DElem) (x : DElem) (j : Nat) :
    j ∈ positions b x ↔ j < b.length ∧ lget b j = x := by
  simp [positions, List.mem_filter, List.mem_range]

theorem b2jP_eq_or (b : List DElem) (x : DElem) :
    b2jPurged b x = [] ∨ b2jPurged b x = positions b x := by
  unfold b2jPurged
  by_cases h : 200 ≤ b.length ∧ b.length / 100 + 1 < (positions b x).length
  · simp [h]
  · simp [h]

theorem b2jP_sub (b : List DElem) (x : DElem) (j : Nat) (h : j ∈ b2jPurged b x) :
    j ∈ positions b x := by
  rcases b2jP_eq_or b x with he | he
  · rw [he] at h
    exact absurd h (List.not_mem_nil j)
  · rw [he] at h
    exact h

theorem b2jP_lt (b : List DElem) (x : DElem) (j : Nat) (h : j ∈ b2jPurged b x) :
    j < b.length :=
  ((mem_positions b x j).mp (b2jP_sub b x j h)).1

theorem b2jP_get (b : List DElem) (x : DElem) (j : Nat) (h : j ∈ b2jPurged b x) :
    lget b j = x :=
  ((mem_positions b x j).mp (b2jP_sub b x j h)).2

theorem b2jP_of_positions (b : List DElem) (x : DElem) (hne : b2jPurged b x ≠ [])
    (j : Nat) (h : j ∈ positions b x) : j ∈ b2jPurged b x := by
  rcases b2jP_eq_or b x with he | he
  · exact absurd he hne
  · rw [he]
    exact h

theorem b2jP_pairwise (b : List DElem) (x : DElem) :
    List.Pairwise (· < ·) (b2jPurged b x) := by
  rcases b2jP_eq_or b x with he | he
  · rw [he]
    exact List.Pairwise.nil
  · rw [he]
    exact List.Pairwise.sublist (List.filter_sublist _) (List.sorted_lt_range b.length)

theorem diag_mem (l : List DElem) (i j : Nat) (hi : i < l.length)
    (hj : j ∈ b2jPurged l (lget l i)) : i ∈ b2jPurged l (lget l i) := by
  have hne : b2jPurged l (lget l i) ≠ [] := by
    intro he
    rw [he] at hj
    exact List.not_mem_nil j hj
  exact b2jP_of_positions l _ hne i ((mem_positions l _ i).mpr ⟨hi, rfl⟩)

theorem cross_mem (l : List DElem) (i j : Nat)
    (hj : j ∈ b2jPurged l (lget l i)) : j ∈ b2jPurged l (lget l j) := by
  rw [b2jP_get l (lget l i) j hj]
  exact hj

theorem Rrun_zero (l : List DElem) (i j : Nat)
    (h : j ∉ b2jPurged l (lget l i)) : Rrun l i j = 0 := by
  cases i with
  | zero => simp [Rrun, h]
  | succ i => simp [Rrun, h]

theorem Rrun_le_succ (l : List DElem) : ∀ i j, Rrun l i j ≤ i + 1 := by
  intro i
  induction i with
  | zero =>
    intro j
    by_cases h : j ∈ b2jPurged l (lget l 0) <;> simp [Rrun, h]
  | succ i ih =>
    intro j
    by_cases h : j ∈ b2jPurged l (lget l (i + 1))
    · by_cases hj : j = 0
      · subst hj
        simp [Rrun, h]
      · have := ih (j - 1)
        simp [Rrun, h, hj]
        omega
    · simp [Rrun, h]

theorem Rrun_dom (l : List DElem) : ∀ i j, i < l.length → Rrun l i j ≤ Rrun l i i := by
  intro i
  induction i with
  | zero =>
    intro j hi
    by_cases h : j ∈ b2jPurged l (lget l 0)
    · have hd : (0 : Nat) ∈ b2jPurged l (lget l 0) := diag_mem l 0 j hi h
      simp [Rrun, h, hd]
    · simp [Rrun, h]
  | succ i ih =>
    intro j hi
    by_cases h : j ∈ b2jPurged l (lget l (i + 1))
    · have hd : (i + 1) ∈ b2jPurged l (lget l (i + 1)) := diag_mem l (i + 1) j hi h
      by_cases hj : j = 0
      · subst hj
        simp [Rrun, h, hd]
      · have := ih (j - 1) (by omega)
        simp [Rrun, h, hd, hj]
        omega
    · simp [Rrun, h]

theorem Rrun_early (l : List DElem) :
    ∀ i j, i < l.length → j < i → Rrun l i j ≤ Rrun l j j := by
  intro i
  induction i with
  | zero =>
    intro j _ hj
    omega
  | succ i ih =>
    intro j hi hj
    by_cases h : j ∈ b2jPurged l (lget l (i + 1))
    · have hjj : j ∈ b2jPurged l (lget l j) := cross_mem l (i + 1) j h
      by_cases hj0 : j = 0
      · subst hj0
        simp [Rrun, h, hjj]
      · have hrec : Rrun l i (j - 1) ≤ Rrun l (j - 1) (j - 1) := by
          rcases Nat.lt_or_ge (j - 1) i with hlt | hge
          · exact ih (j - 1) (by omega) hlt
          · have : j - 1 = i := by omega
            rw [this]
        have hdiag : Rrun l j j = Rrun l (j - 1) (j - 1) + 1 := by
          rcases Nat.exists_eq_succ_of_ne_zero hj0 with ⟨m, rfl⟩
          simp [Rrun, hjj]
        rw [hdiag]
        simp [Rrun, h, hj0]
        omega
    · simp [Rrun, h]

theorem k_eq_Rrun (l : List DElem) (i j : Nat) (h : j ∈ b2jPurged l (lget l i)) :
    (if j = 0 then 0 else prevR l i (j - 1)) + 1 = Rrun l i j := by
  cases i with
  | zero =>
    by_cases hj : j = 0
    · subst hj
      simp [prevR, Rrun, h]
    · simp [prevR, Rrun, h, hj]
  | succ i =>
    by_cases hj : j = 0
    · subst hj
      simp [prevR, Rrun, h]
    · simp [prevR, Rrun, h, hj]

theorem innerLoop_spec (l : List DElem) (i : Nat) (hin : i < l.length)
    (j2a : Nat → Nat) (hj2a : ∀ jj, j2a jj = prevR l i jj) :
    ∀ (js : List Nat) (newd : Nat → Nat) (st : FlmState),
      js <:+ b2jPurged l (lget l i) →
      st.besti = st.bestj →
      st.besti + st.bestsize ≤ l.length →
      (∀ i', i' < i → Rrun l i' i' ≤ st.bestsize) →
      ((∃ j ∈ js, i < j) → (i ∈ js ∨ Rrun l i i ≤ st.bestsize)) →
      ((innerLoop 0 l.length j2a i js newd st).2.besti =
         (innerLoop 0 l.length j2a i js newd st).2.bestj ∧
       (innerLoop 0 l.length j2a i js newd st).2.besti +
         (innerLoop 0 l.length j2a i js newd st).2.bestsize ≤ l.length ∧
       st.bestsize ≤ (innerLoop 0 l.length j2a i js newd st).2.bestsize ∧
       (∀ i', i' < i → Rrun l i' i' ≤ (innerLoop 0 l.length j2a i js newd st).2.bestsize) ∧
       ((i ∈ js ∨ Rrun l i i ≤ st.bestsize) →
         Rrun l i i ≤ (innerLoop 0 l.length j2a i js newd st).2.bestsize) ∧
       (∀ jj, (innerLoop 0 l.length j2a i js newd st).1 jj =
         if jj ∈ js then Rrun l i jj else newd jj)) := by
  intro js
  induction js with
  | nil =>
    intro newd st _ h1 h2 h3 _
    refine ⟨h1, h2, le_rfl, h3, ?_, ?_⟩
    · intro h
      rcases h with h | h
      · exact absurd h (List.not_mem_nil i)
      · exact h
    · intro jj
      rfl
  | cons j js ih =>
    intro newd st hsuf h1 h2 h3 h4
    have hsufT : js <:+ b2jPurged l (lget l i) :=
      (List.suffix_cons j js).trans hsuf
    have hjmem : j ∈ b2jPurged l (lget l i) :=
      hsuf.sublist.subset (List.mem_cons_self j js)
    have hjn : j < l.length := b2jP_lt l _ j hjmem
    have hpw : List.Pairwise (· < ·) (j :: js) :=
      List.Pairwise.sublist hsuf.sublist (b2jP_pairwise l (lget l i))
    have hjlt : ∀ x ∈ js, j < x := (List.pairwise_cons.mp hpw).1
    have hk : (if j = 0 then 0 else j2a (j - 1)) + 1 = Rrun l i j := by
      simp only [hj2a]
      exact k_eq_Rrun l i j hjmem
    have hstep : innerLoop 0 l.length j2a i (j :: js) newd st =
        innerLoop 0 l.length j2a i js
          (fun j' => if j' = j then (if j = 0 then 0 else j2a (j - 1)) + 1 else newd j')
          (if st.bestsize < (if j = 0 then 0 else j2a (j - 1)) + 1 then
             FlmState.mk (i + 1 - ((if j = 0 then 0 else j2a (j - 1)) + 1))
               (j + 1 - ((if j = 0 then 0 else j2a (j - 1)) + 1))
               ((if j = 0 then 0 else j2a (j - 1)) + 1)
           else st) := by
      simp only [innerLoop]
      rw [if_neg (by omega : ¬ (j < 0)), if_neg (by omega : ¬ (l.length ≤ j))]
    rw [hstep, hk]
    have hFgen : ∀ (st' : FlmState),
        (∀ jj, (innerLoop 0 l.length j2a i js
            (fun j' => if j' = j then Rrun l i j else newd j') st').1 jj =
          if jj ∈ js then Rrun l i jj
          else (fun j' => if j' = j then Rrun l i j else newd j') jj) →
        (∀ jj, (innerLoop 0 l.length j2a i js
            (fun j' => if j' = j then Rrun l i j else newd j') st').1 jj =
          if jj ∈ (j :: js) then Rrun l i jj else newd jj) := by
      intro st' hF jj
      rw [hF jj]
      by_cases hjj : jj ∈ js
      · simp [hjj, List.mem_cons_of_mem j hjj]
      · by_cases hje : jj = j
        · subst hje
          simp [hjj]
        · simp [hjj, hje]
    rcases Nat.lt_trichotomy j i with hji | hji | hji
    · -- j < i: the candidate run is dominated by its earlier diagonal twin
      have hkle : Rrun l i j ≤ st.bestsize :=
        le_trans (Rrun_early l i j hin hji) (h3 j hji)
      rw [if_neg (show ¬ st.bestsize < Rrun l i j by omega)]
      have hfeed : (∃ j' ∈ js, i < j') → (i ∈ js ∨ Rrun l i i ≤ st.bestsize) := by
        intro hex
        rcases hex with ⟨j', hj', hij'⟩
        rcases h4 ⟨j', List.mem_cons_of_mem j hj', hij'⟩ with hm | hm
        · rcases List.mem_cons.mp hm with hm | hm
          · omega
          · exact Or.inl hm
        · exact Or.inr hm
      obtain ⟨hA, hB, hC, hD, hE, hF⟩ :=
        ih (fun j' => if j' = j then Rrun l i j else newd j') st hsufT h1 h2 h3 hfeed
      refine ⟨hA, hB, hC, hD, ?_, hFgen st hF⟩
      intro hcond
      refine hE ?_
      rcases hcond with hm | hm
      · rcases List.mem_cons.mp hm with hm | hm
        · omega
        · exact Or.inl hm
      · exact Or.inr hm
    · -- j = i: any update lands on the diagonal
      subst hji
      by_cases hlt : st.bestsize < Rrun l j j
      · rw [if_pos hlt]
        have hkle : Rrun l j j ≤ j + 1 := Rrun_le_succ l j j
        obtain ⟨hA, hB, hC, hD, hE, hF⟩ :=
          ih (fun j' => if j' = j then Rrun l j j else newd j')
            (FlmState.mk (j + 1 - Rrun l j j) (j + 1 - Rrun l j j) (Rrun l j j))
            hsufT rfl
            (by show j + 1 - Rrun l j j + Rrun l j j ≤ l.length; omega)
            (by
              intro i' hi'
              show Rrun l i' i' ≤ Rrun l j j
              have := h3 i' hi'
              omega)
            (fun _ => Or.inr (by show Rrun l j j ≤ Rrun l j j; exact le_rfl))
        refine ⟨hA, hB, ?_, hD, ?_, hFgen _ hF⟩
        · exact le_trans (le_of_lt hlt)
            (le_trans (by show Rrun l j j ≤ Rrun l j j; exact le_rfl) hC)
        · intro _
          exact hE (Or.inr (by show Rrun l j j ≤ Rrun l j j; exact le_rfl))
      · rw [if_neg hlt]
        have hRle : Rrun l j j ≤ st.bestsize := Nat.le_of_not_lt hlt
        obtain ⟨hA, hB, hC, hD, hE, hF⟩ :=
          ih (fun j' => if j' = j then Rrun l j j else newd j') st hsufT h1 h2 h3
            (fun _ => Or.inr hRle)
        refine ⟨hA, hB, hC, hD, ?_, hFgen st hF⟩
        intro _
        exact hE (Or.inr hRle)
    · -- i < j: the head is past the diagonal, which was already counted
      have hinotin : i ∉ (j :: js) := by
        intro hm
        rcases List.mem_cons.mp hm with hm | hm
        · omega
        · exact absurd (hjlt i hm) (by omega)
      have hRbs : Rrun l i i ≤ st.bestsize := by
        rcases h4 ⟨j, List.mem_cons_self j js, hji⟩ with hm | hm
        · exact absurd hm hinotin
        · exact hm
      have hkle : Rrun l i j ≤ st.bestsize :=
        le_trans (Rrun_dom l i j hin) hRbs
      rw [if_neg (show ¬ st.bestsize < Rrun l i j by omega)]
      obtain ⟨hA, hB, hC, hD, hE, hF⟩ :=
        ih (fun j' => if j' = j then Rrun l i j else newd j') st hsufT h1 h2 h3
          (fun _ => Or.inr hRbs)
      refine ⟨hA, hB, hC, hD, ?_, hFgen st hF⟩
      intro _
      exact hE (Or.inr hRbs)

theorem Rrun_zero_prevR (l : List DElem) (i0 : Nat)
    (r : Nat → Nat)
    (hr : ∀ jj, r jj = if jj ∈ b2jPurged l (lget l i0) then Rrun l i0 jj else 0) :
    ∀ jj, r jj = prevR l (i0 + 1) jj := by
  intro jj
  rw [hr jj]
  by_cases hm : jj ∈ b2jPurged l (lget l i0)
  · simp [prevR, hm]
  · simp [prevR, Rrun_zero l i0 jj hm]

theorem flmLoop_spec (l : List DElem) :
    ∀ (cnt i0 : Nat) (j2a : Nat → Nat) (st : FlmState),
      i0 + cnt = l.length →
      (∀ jj, j2a jj = prevR l i0 jj) →
      st.besti = st.bestj →
      st.besti + st.bestsize ≤ l.length →
      (∀ i', i' < i0 → Rrun l i' i' ≤ st.bestsize) →
      ((flmLoop l l 0 l.length (rangeN i0 cnt) j2a st).besti =
         (flmLoop l l 0 l.length (rangeN i0 cnt) j2a st).bestj ∧
       (flmLoop l l 0 l.length (rangeN i0 cnt) j2a st).besti +
         (flmLoop l l 0 l.length (rangeN i0 cnt) j2a st).bestsize ≤ l.length) := by
  intro cnt
  induction cnt with
  | zero =>
    intro i0 j2a st _ _ h1 h2 _
    exact ⟨h1, h2⟩
  | succ cnt ih =>
    intro i0 j2a st hlen hj2a h1 h2 h3
    have hi0 : i0 < l.length := by omega
    have hstep : flmLoop l l 0 l.length (rangeN i0 (cnt + 1)) j2a st =
        flmLoop l l 0 l.length (rangeN (i0 + 1) cnt)
          (innerLoop 0 l.length j2a i0 (b2jPurged l (lget l i0)) (fun _ => 0) st).1
          (innerLoop 0 l.length j2a i0 (b2jPurged l (lget l i0)) (fun _ => 0) st).2 := by
      simp only [rangeN, flmLoop]
    rw [hstep]
    have hfeed : (∃ j ∈ b2jPurged l (lget l i0), i0 < j) →
        (i0 ∈ b2jPurged l (lget l i0) ∨ Rrun l i0 i0 ≤ st.bestsize) := by
      intro hex
      rcases hex with ⟨j, hj, _⟩
      exact Or.inl (diag_mem l i0 j hi0 hj)
    obtain ⟨hA, hB, _, hD, hE, hF⟩ :=
      innerLoop_spec l i0 hi0 j2a hj2a (b2jPurged l (lget l i0)) (fun _ => 0) st
        (List.suffix_refl _) h1 h2 h3 hfeed
    refine ih (i0 + 1) _ _ (by omega) ?_ hA hB ?_
    · refine Rrun_zero_prevR l i0 _ ?_
      intro jj
      rw [hF jj]
    · intro i' hi'
      rcases Nat.lt_or_ge i' i0 with hlt | hge
      · exact hD i' hlt
      · have : i' = i0 := by omega
        subst this
        by_cases hm : i' ∈ b2jPurged l (lget l i')
        · exact hE (Or.inl hm)
        · refine hE (Or.inr ?_)
          rw [Rrun_zero l i' i' hm]
          omega

theorem extendB_diag (l : List DElem) :
    ∀ (fuel : Nat) (st : FlmState), st.besti = st.bestj → st.besti ≤ fuel →
      extendBackward l l 0 0 fuel st = FlmState.mk 0 0 (st.bestsize + st.besti) := by
  intro fuel
  induction fuel with
  | zero =>
    intro st hd hf
    show st = _
    cases st with
    | mk bi bj bs =>
      simp only [FlmState.mk.injEq]
      simp at hd hf
      refine ⟨by omega, by omega, by omega⟩
  | succ fuel ih =>
    intro st hd hf
    by_cases h0 : st.besti = 0
    · have hstep : extendBackward l l 0 0 (fuel + 1) st = st := by
        simp only [extendBackward]
        rw [if_neg (fun hc => absurd hc.1 (by omega))]
      rw [hstep]
      cases st with
      | mk bi bj bs =>
        simp only [FlmState.mk.injEq]
        simp at hd h0
        refine ⟨by omega, by omega, by omega⟩
    · have hstep : extendBackward l l 0 0 (fuel + 1) st =
          extendBackward l l 0 0 fuel
            (FlmState.mk (st.besti - 1) (st.bestj - 1) (st.bestsize + 1)) := by
        simp only [extendBackward]
        rw [if_pos ⟨by omega, by omega, by rw [hd]⟩]
      rw [hstep, ih (FlmState.mk (st.besti - 1) (st.bestj - 1) (st.bestsize + 1))
        (by show st.besti - 1 = st.bestj - 1; rw [hd]) (by show st.besti - 1 ≤ fuel; omega)]
      show FlmState.mk 0 0 (st.bestsize + 1 + (st.besti - 1)) = _
      have harith : st.bestsize + 1 + (st.besti - 1) = st.bestsize + st.besti := by omega
      rw [harith]

theorem extendF_diag (l : List DElem) :
    ∀ (fuel : Nat) (st : FlmState), st.besti = 0 → st.bestj = 0 →
      st.bestsize ≤ l.length → l.length - st.bestsize ≤ fuel →
      extendForward l l l.length l.length fuel st = FlmState.mk 0 0 l.length := by
  intro fuel
  induction fuel with
  | zero =>
    intro st h0 h0' hle hf
    show st = _
    cases st with
    | mk bi bj bs =>
      simp only [FlmState.mk.injEq]
      simp at h0 h0' hle hf
      refine ⟨h0, h0', by omega⟩
  | succ fuel ih =>
    intro st h0 h0' hle hf
    by_cases hbs : st.bestsize = l.length
    · have hstep : extendForward l l l.length l.length (fuel + 1) st = st := by
        simp only [extendForward]
        rw [if_neg (fun hc => absurd hc.1 (by omega))]
      rw [hstep]
      cases st with
      | mk bi bj bs =>
        simp only [FlmState.mk.injEq]
        simp at h0 h0' hbs
        refine ⟨h0, h0', hbs⟩
    · have hstep : extendForward l l l.length l.length (fuel + 1) st =
          extendForward l l l.length l.length fuel
            (FlmState.mk st.besti st.bestj (st.bestsize + 1)) := by
        simp only [extendForward]
        rw [if_pos ⟨by omega, by omega, by rw [h0, h0']⟩]
      rw [hstep]
      exact ih (FlmState.mk st.besti st.bestj (st.bestsize + 1))
        (by show st.besti = 0; omega) (by show st.bestj = 0; omega)
        (by show st.bestsize + 1 ≤ l.length; omega)
        (by show l.length - (st.bestsize + 1) ≤ fuel; omega)

/-- On the self-comparison, `find_longest_match` over the full range always
returns the whole sequence as a single block. -/
theorem flm_self (l : List DElem) :
    find_longest_match l l 0 l.length 0 l.length = FlmState.mk 0 0 l.length := by
  unfold find_longest_match
  have hn : l.length - 0 = l.length := by omega
  rw [hn]
  obtain ⟨hA, hB⟩ := flmLoop_spec l l.length 0 (fun _ => 0) (FlmState.mk 0 0 0)
    (by omega) (fun jj => rfl) rfl (by simp) (by omega)
  rw [extendB_diag l _ _ hA le_rfl]
  exact extendF_diag l l.length (FlmState.mk 0 0 _) rfl rfl
    (by show _ + _ ≤ l.length; omega) (by simp)

theorem extendB_noop (a b : List DElem) (alo blo : Nat) :
    ∀ fuel bs, extendBackward a b alo blo fuel (FlmState.mk alo blo bs) =
      FlmState.mk alo blo bs := by
  intro fuel bs
  cases fuel with
  | zero => rfl
  | succ fuel =>
    simp only [extendBackward]
    rw [if_neg (fun hc => absurd hc.1 (show ¬ alo < alo by omega))]

/-- `find_longest_match` on an empty `a`-range finds nothing. -/
theorem flm_empty (a b : List DElem) (alo blo : Nat) :
    find_longest_match a b alo alo blo blo = FlmState.mk alo blo 0 := by
  unfold find_longest_match
  have h0 : alo - alo = 0 := by omega
  rw [h0]
  show extendForward a b alo blo alo
    (extendBackward a b alo blo (FlmState.mk alo blo 0).besti (FlmState.mk alo blo 0)) = _
  rw [show (FlmState.mk alo blo 0).besti = alo from rfl, extendB_noop a b alo blo alo 0]
  cases alo with
  | zero => rfl
  | succ m =>
    simp only [extendForward]
    rw [if_neg (fun hc => absurd hc.1 (show ¬ (m + 1 + 0 < m + 1) by omega))]

theorem mbRec_empty (a b : List DElem) :
    ∀ fuel alo blo, mbRec a b fuel alo alo blo blo = [] := by
  intro fuel alo blo
  cases fuel with
  | zero => rfl
  | succ fuel => simp [mbRec, flm_empty a b alo blo]

theorem mbRec_self (l : List DElem) :
    mbRec l l (l.length + l.length + 1) 0 l.length 0 l.length =
      if 0 < l.length then [(0, 0, l.length)] else [] := by
  simp only [mbRec, flm_self l]
  by_cases hl : 0 < l.length
  · simp [hl, mbRec_empty]
  · simp [hl]

theorem gmb_self (l : List DElem) :
    get_matching_blocks l l =
      if 0 < l.length then [(0, 0, l.length), (l.length, l.length, 0)]
      else [(l.length, l.length, 0)] := by
  unfold get_matching_blocks
  rw [mbRec_self]
  by_cases hl : 0 < l.length
  · rw [if_pos hl, if_pos hl]
    unfold mergeBlocks
    simp [hl.ne']
  · rw [if_neg hl, if_neg hl]
    unfold mergeBlocks
    simp

theorem opcodes_self (l : List DElem) :
    get_opcodes_from_blocks (get_matching_blocks l l) =
      if 0 < l.length then [Opcode.mk OpTag.equal 0 l.length 0 l.length] else [] := by
  rw [gmb_self]
  by_cases hl : 0 < l.length
  · rw [if_pos hl, if_pos hl]
    unfold get_opcodes_from_blocks
    simp [opcStep, hl]
  · rw [if_neg hl, if_neg hl]
    unfold get_opcodes_from_blocks
    simp [opcStep, hl]

theorem grouped_single_equal (m : Nat) :
    get_grouped_opcodes 3 [Opcode.mk OpTag.equal 0 m 0 m] = [] := by
  have h1 : adjustFirst 3 [Opcode.mk OpTag.equal 0 m 0 m] =
      [Opcode.mk OpTag.equal (m - 3) m (m - 3) m] := by
    simp [adjustFirst]
  have h2 : adjustLast 3 [Opcode.mk OpTag.equal (m - 3) m (m - 3) m] =
      [Opcode.mk OpTag.equal (m - 3) (min m (m - 3 + 3)) (m - 3) (min m (m - 3 + 3))] := by
    simp [adjustLast]
  unfold get_grouped_opcodes
  rw [show ([Opcode.mk OpTag.equal 0 m 0 m] : List Opcode).isEmpty = false from rfl]
  simp only [Bool.false_eq_true, if_false, h1, h2, List.foldl_cons, List.foldl_nil, grpStep]
  rw [if_neg (fun hc =>
    (show ¬ (3 + 3 < min m (m - 3 + 3) - (m - 3)) by omega) hc.2)]
  rfl

theorem grouped_nil : get_grouped_opcodes 3 ([] : List Opcode) = [] := rfl

/-- `difflib.context_diff` of any sequence with itself yields no lines at
all. -/
theorem contextDiff_self (x : List DElem) : context_diff x x = [] := by
  unfold context_diff
  by_cases hl : 0 < x.length
  · rw [opcodes_self, if_pos hl, grouped_single_equal]
  · rw [opcodes_self, if_neg hl, grouped_nil]

/-- Claim C8: `get_tree_diff` of a tree with itself — and hence of any two
trees that flatten to the same sequence — is the empty string: an
identical pair produces an empty diff with no change markers.  (This holds
for every tree, including ones whose flattened form trips `difflib`'s
autojunk purge, because the matcher's extension loops still grow the
diagonal match to the full range.) -/
theorem C8_tree_diff_self (T : LTree) : get_tree_diff T T = [] := by
  unfold get_tree_diff
  rw [contextDiff_self]
  rfl

/-- Claim C9: with a separator pattern, `get_string_diff` strips all
newlines from both inputs, splits both by the pattern, and drops every
empty unit from both sides before diffing; consequently
`get_string_diff "a,b,,c" "a,b,c" sep=","` reports no difference. -/
theorem C9_string_diff_sep :
    (∀ (original revised sep : List Char),
      get_string_diff original revised (some sep) =
        joinNL (context_diff
          ((reSplitLit sep (removeChar chNL original)).filter (fun u => u ≠ []))
          ((reSplitLit sep (removeChar chNL revised)).filter (fun u => u ≠ [])))) ∧
    get_string_diff (chars "a,b,,c") (chars "a,b,c") (some [',']) = [] := by
  refine ⟨fun o r sp => rfl, ?_⟩
  have h1 : stringDiffPrep [','] (chars "a,b,,c") = [['a'], ['b'], ['c']] := by decide
  have h2 : stringDiffPrep [','] (chars "a,b,c") = [['a'], ['b'], ['c']] := by decide
  show joinNL (context_diff (stringDiffPrep [','] (chars "a,b,,c"))
    (stringDiffPrep [','] (chars "a,b,c"))) = []
  rw [h1, h2, contextDiff_self]
  rfl
